import Mathlib

/-!
Verification of the mcp-gateway multi-scope index merge/deduplication
utilities (`src/packages/mcp/src/utils/tool-deduplication.ts`), the BM25
IDF formula, and the tool executor's error handling
(`ToolExecutor.callTool`).

The TypeScript data shapes (`IndexedTool`, `PersistedIndex`) are declared
in the external `@pleaseai/mcp-core` package, which is not among the
sources; their shapes are taken from the spec's "Index file" interface
(section 6): each tool record is `{tool: {name, title, description,
inputSchema}, searchableText, tokens, embedding?, serverName}`, and an
index carries `version`, `createdAt`, `embeddingProvider`,
`embeddingDimensions`, `tools`, `bm25Stats` and `hasEmbeddings`.
Floating-point fields are modelled as rationals; the `inputSchema` blob is
opaque and modelled as a string.
-/

/-- A tool definition: `{name, title, description, inputSchema}`. -/
structure Tool where
  name : String
  title : String
  description : String
  inputSchema : String
  deriving DecidableEq, Repr

/-- An indexed tool as stored in a persisted index. -/
structure IndexedTool where
  tool : Tool
  searchableText : String
  tokens : List String
  embedding : Option (List ℚ)
  serverName : String
  deriving DecidableEq, Repr

/-- Corpus statistics (`bm25Stats` in the index file). The document
frequency record is modelled as an association list. -/
structure BM25Stats where
  avgDocLength : ℚ
  documentFrequencies : List (String × ℕ)
  totalDocuments : ℕ
  deriving DecidableEq, Repr

/-- A persisted index (one scope's index file contents). -/
structure PersistedIndex where
  version : ℕ
  createdAt : String
  embeddingProvider : Option String
  embeddingDimensions : Option ℕ
  tools : List IndexedTool
  bm25Stats : BM25Stats
  hasEmbeddings : Bool
  deriving DecidableEq, Repr

/-- The name a tool is keyed by in the merge (`tool.tool.name`). -/
def toolName (t : IndexedTool) : String := t.tool.name

/-- The sequence of tool names of a tool list. -/
def names (ts : List IndexedTool) : List String := ts.map toolName

/-- A JS `Map<string, IndexedTool>` is an insertion-ordered association
list: iteration order is insertion order of keys, and `set` on an existing
key replaces the value in place. -/
def ToolMap := List (String × IndexedTool)

/-- The key sequence of a tool map (JS `Map` iteration order of keys). -/
def keys (m : List (String × IndexedTool)) : List String := m.map Prod.fst

/-- JS `Map.prototype.set`: replace the value of an existing key in place,
otherwise append the new entry at the end. -/
def mapSet (m : List (String × IndexedTool)) (k : String) (v : IndexedTool) :
    List (String × IndexedTool) :=
  match m with
  | [] => [(k, v)]
  | (k', v') :: rest =>
      if k' = k then (k', v) :: rest else (k', v') :: mapSet rest k v

/-- `Map.get` as used through `Array.from(map.values())` lookups: the value
at a key, if present. -/
def alookup (m : List (String × IndexedTool)) (k : String) : Option IndexedTool :=
  (m.find? (fun e => e.1 == k)).map Prod.snd

/-- One `for (const tool of index.tools) toolMap.set(tool.tool.name, tool)`
loop from `mergeIndexedTools`. -/
def insertAll (m : List (String × IndexedTool)) (ts : List IndexedTool) :
    List (String × IndexedTool) :=
  ts.foldl (fun acc t => mapSet acc (toolName t) t) m

/-- `mergeIndexedTools` from `tool-deduplication.ts`: insert the user
index's tools into an empty map, then overlay the project index's tools,
and return the map's values in iteration order. The `DEBUG` branch in the
source only writes to stderr and counts overrides; it does not affect the
returned array and is omitted. -/
def mergeIndexedTools (projectIndex userIndex : Option PersistedIndex) :
    List IndexedTool :=
  let m0 : List (String × IndexedTool) := []
  let m1 := match userIndex with
    | none => m0
    | some u => insertAll m0 u.tools
  let m2 := match projectIndex with
    | none => m1
    | some p => insertAll m1 p.tools
  m2.map Prod.snd

/-- The zero-valued default statistics returned by `selectBM25Stats` when
both indexes are absent. -/
def defaultBM25Stats : BM25Stats := ⟨0, [], 0⟩

/-- `selectBM25Stats` from `tool-deduplication.ts`:
`projectIndex?.bm25Stats ?? userIndex?.bm25Stats`, falling back to the
zero-valued default when both indexes are null. -/
def selectBM25Stats (projectIndex userIndex : Option PersistedIndex) : BM25Stats :=
  match projectIndex with
  | some p => p.bm25Stats
  | none =>
    match userIndex with
    | some u => u.bm25Stats
    | none => defaultBM25Stats

/-- `hasAnyEmbeddings` from `tool-deduplication.ts`:
`(projectIndex?.hasEmbeddings ?? false) || (userIndex?.hasEmbeddings ?? false)`. -/
def hasAnyEmbeddings (projectIndex userIndex : Option PersistedIndex) : Bool :=
  (match projectIndex with
   | some p => p.hasEmbeddings
   | none => false)
  ||
  (match userIndex with
   | some u => u.hasEmbeddings
   | none => false)

/-- Modelled from the spec: the BM25 strategy implementation is not among
the sources (only its formula is documented, in the spec's section 4.3 and
in `docs/search-architecture.md`). IDF of a term given the total document
count `N` and the term's document frequency `df` (0 when the term is
absent from `documentFrequencies`):
`IDF(term) = ln(1 + (N - df + 0.5) / (df + 0.5))`. -/
noncomputable def bm25IDF (N df : ℕ) : ℝ :=
  Real.log (1 + ((N : ℝ) - (df : ℝ) + 0.5) / ((df : ℝ) + 0.5))

/-- Claim C4: `selectBM25Stats` returns the project index's statistics when
the project index is present, otherwise the user index's statistics,
otherwise the zero-valued default (`avgDocLength` 0, empty frequency map,
`totalDocuments` 0); the result always equals one input's statistics or
that default, never a numerical combination of the two. -/
theorem selectBM25Stats_prefers_project (p u : Option PersistedIndex) :
    selectBM25Stats p u =
      (match p with
       | some pi => pi.bm25Stats
       | none =>
         match u with
         | some ui => ui.bm25Stats
         | none => ⟨0, [], 0⟩)
    ∧ ((∃ pi, p = some pi ∧ selectBM25Stats p u = pi.bm25Stats)
        ∨ (∃ ui, u = some ui ∧ selectBM25Stats p u = ui.bm25Stats)
        ∨ selectBM25Stats p u = ⟨0, [], 0⟩) := by
  cases p with
  | some pi => exact ⟨rfl, Or.inl ⟨pi, rfl, rfl⟩⟩
  | none =>
    cases u with
    | some ui => exact ⟨rfl, Or.inr (Or.inl ⟨ui, rfl, rfl⟩)⟩
    | none => exact ⟨rfl, Or.inr (Or.inr rfl)⟩

/-- Claim C5: `hasAnyEmbeddings project user` is true if and only if at
least one non-null input index reports embeddings present; in particular
`hasAnyEmbeddings none none = false`. -/
theorem hasAnyEmbeddings_iff (p u : Option PersistedIndex) :
    (hasAnyEmbeddings p u = true ↔
      ∃ i, (p = some i ∨ u = some i) ∧ i.hasEmbeddings = true)
    ∧ hasAnyEmbeddings none none = false := by
  constructor
  · constructor
    · intro h
      cases p with
      | some pi =>
        cases hpi : pi.hasEmbeddings with
        | true => exact ⟨pi, Or.inl rfl, hpi⟩
        | false =>
          cases u with
          | some ui =>
            refine ⟨ui, Or.inr rfl, ?_⟩
            simpa [hasAnyEmbeddings, hpi] using h
          | none => simp [hasAnyEmbeddings, hpi] at h
      | none =>
        cases u with
        | some ui =>
          refine ⟨ui, Or.inr rfl, ?_⟩
          simpa [hasAnyEmbeddings] using h
        | none => simp [hasAnyEmbeddings] at h
    · rintro ⟨i, hi, hemb⟩
      rcases hi with hi | hi
      · subst hi
        simp [hasAnyEmbeddings, hemb]
      · subst hi
        cases p with
        | some pi => simp [hasAnyEmbeddings, hemb]
        | none => simp [hasAnyEmbeddings, hemb]
  · rfl

/-- Claim C6: the three scope-merge functions are total by construction
(they are plain Lean functions into non-optional result types, with no
error case); an absent (`none`) index behaves like an index with an empty
tool list for the merge, and in particular `mergeIndexedTools none none`
is the empty list, `selectBM25Stats none none` the zero default, and
`hasAnyEmbeddings none none` is `false`. -/
theorem merge_functions_total_on_null (u : Option PersistedIndex)
    (e : PersistedIndex) (he : e.tools = []) :
    mergeIndexedTools none none = []
    ∧ selectBM25Stats none none = defaultBM25Stats
    ∧ hasAnyEmbeddings none none = false
    ∧ mergeIndexedTools none u = mergeIndexedTools (some e) u
    ∧ mergeIndexedTools u none = mergeIndexedTools u (some e) := by
  refine ⟨rfl, rfl, rfl, ?_, ?_⟩
  · cases u with
    | none => simp [mergeIndexedTools, he, insertAll]
    | some ui => simp [mergeIndexedTools, he, insertAll]
  · cases u with
    | none => simp [mergeIndexedTools, he, insertAll]
    | some ui => simp [mergeIndexedTools, he, insertAll]

/-- Claim C8: for a term absent from `documentFrequencies` (document
frequency 0) and any total document count `N`, the IDF value
`ln(1 + (N - 0 + 0.5) / (0 + 0.5))` is strictly positive. The value is a
real number by construction (the argument of `ln` is at least 2, so the
logarithm is well defined, finite and never `NaN` or infinite). -/
theorem bm25IDF_unseen_term_pos (N : ℕ) : 0 < bm25IDF N 0 := by
  unfold bm25IDF
  have hq : (0 : ℝ) < ((N : ℝ) - (0 : ℕ) + 0.5) / ((0 : ℕ) + 0.5) := by
    apply div_pos
    · push_cast
      have : (0 : ℝ) ≤ (N : ℝ) := Nat.cast_nonneg N
      linarith
    · norm_num
  exact Real.log_pos (by linarith)

/-! ### Properties of the insertion-ordered map -/

/-- Setting an existing key leaves the key sequence unchanged. -/
theorem keys_mapSet_of_mem (m : List (String × IndexedTool)) (k : String)
    (v : IndexedTool) (h : k ∈ keys m) : keys (mapSet m k v) = keys m := by
  induction m with
  | nil => simp [keys] at h
  | cons e rest ih =>
    obtain ⟨k', v'⟩ := e
    by_cases hk : k' = k
    · simp [mapSet, hk, keys]
    · have h' : k ∈ keys rest := by
        rcases (List.mem_cons).mp h with h0 | h0
        · exact absurd h0.symm hk
        · exact h0
      simp only [mapSet, if_neg hk, keys, List.map_cons]
      simpa [keys] using congrArg (List.cons k') (ih h')

/-- Setting a fresh key appends the entry at the end. -/
theorem mapSet_of_not_mem (m : List (String × IndexedTool)) (k : String)
    (v : IndexedTool) (h : k ∉ keys m) : mapSet m k v = m ++ [(k, v)] := by
  induction m with
  | nil => rfl
  | cons e rest ih =>
    obtain ⟨k', v'⟩ := e
    have hk : k' ≠ k := by
      intro hk
      exact h (by simp [keys, hk])
    have h' : k ∉ keys rest := by
      intro hmem
      exact h (by simp [keys] at hmem ⊢; exact Or.inr hmem)
    simp [mapSet, hk, ih h']

/-- Looking up the key just set yields the new value. -/
theorem alookup_mapSet_self (m : List (String × IndexedTool)) (k : String)
    (v : IndexedTool) : alookup (mapSet m k v) k = some v := by
  induction m with
  | nil => simp [mapSet, alookup]
  | cons e rest ih =>
    obtain ⟨k', v'⟩ := e
    by_cases hk : k' = k
    · simp [mapSet, hk, alookup]
    · simp only [mapSet, if_neg hk]
      have : ¬ ((k', v').1 == k) = true := by simpa using hk
      simpa [alookup, List.find?_cons, this] using ih

/-- Setting a key does not change the value at any other key. -/
theorem alookup_mapSet_ne (m : List (String × IndexedTool)) (k k' : String)
    (v : IndexedTool) (h : k' ≠ k) : alookup (mapSet m k v) k' = alookup m k' := by
  induction m with
  | nil => simp [mapSet, alookup, List.find?_cons, beq_iff_eq, Ne.symm h]
  | cons e rest ih =>
    obtain ⟨k0, v0⟩ := e
    by_cases hk : k0 = k
    · subst hk
      simp [mapSet, alookup, List.find?_cons, Ne.symm h]
    · simp only [mapSet, if_neg hk]
      by_cases hk' : k0 = k'
      · simp [alookup, List.find?_cons, hk']
      · have h0 : ¬ ((k0, v0).1 == k') = true := by simpa using hk'
        simpa [alookup, List.find?_cons, h0] using ih

/-- The last tool of a list with a given name, if any. When one loop of
`mergeIndexedTools` inserts a whole tool list, this is the value that ends
up stored under that name. -/
def lastWith (ts : List IndexedTool) (k : String) : Option IndexedTool :=
  ts.reverse.find? (fun t => toolName t == k)

theorem lastWith_cons (t : IndexedTool) (ts : List IndexedTool) (k : String) :
    lastWith (t :: ts) k =
      (lastWith ts k).or (if toolName t == k then some t else none) := by
  unfold lastWith
  rw [List.reverse_cons, List.find?_append]
  congr 1
  cases h : (toolName t == k) with
  | true => simp [List.find?_cons, h]
  | false => simp [List.find?_cons, h]

/-- The value a whole insertion loop leaves at key `k`: the last inserted
tool named `k` when one exists, otherwise whatever the map held before. -/
theorem alookup_insertAll (ts : List IndexedTool)
    (m : List (String × IndexedTool)) (k : String) :
    alookup (insertAll m ts) k =
      match lastWith ts k with
      | some t => some t
      | none => alookup m k := by
  induction ts generalizing m with
  | nil => simp [insertAll, lastWith]
  | cons t ts ih =>
    have hstep : insertAll m (t :: ts) = insertAll (mapSet m (toolName t) t) ts := rfl
    rw [hstep, ih, lastWith_cons]
    cases hl : lastWith ts k with
    | some t' => simp
    | none =>
      by_cases hk : toolName t = k
      · subst hk
        simp [alookup_mapSet_self]
      · have hbeq : (toolName t == k) = false := by simpa using hk
        simp [hbeq, alookup_mapSet_ne m (toolName t) k t (Ne.symm hk)]

/-- Every entry of the merge map is keyed by its value's tool name. -/
def coherent (m : List (String × IndexedTool)) : Prop :=
  ∀ e ∈ m, e.1 = toolName e.2

theorem coherent_nil : coherent [] := by
  intro e he
  cases he

/-- Membership in a map after `set`: either an old entry, or an entry with
the new key and value. -/
theorem mem_mapSet {m : List (String × IndexedTool)} {k : String}
    {v : IndexedTool} {e : String × IndexedTool} (he : e ∈ mapSet m k v) :
    e ∈ m ∨ (e.1 = k ∧ e.2 = v) := by
  induction m with
  | nil =>
    simp only [mapSet, List.mem_singleton] at he
    right
    exact ⟨congrArg Prod.fst he, congrArg Prod.snd he⟩
  | cons e0 rest ih =>
    obtain ⟨k0, v0⟩ := e0
    by_cases hk : k0 = k
    · simp only [mapSet, if_pos hk, List.mem_cons] at he
      rcases he with he | he
      · right
        subst he
        exact ⟨hk, rfl⟩
      · left
        simp [he]
    · simp only [mapSet, if_neg hk, List.mem_cons] at he
      rcases he with he | he
      · left
        simp [he]
      · rcases ih he with h1 | h1
        · left
          simp [h1]
        · right
          exact h1

theorem coherent_mapSet (m : List (String × IndexedTool)) (h : coherent m)
    (v : IndexedTool) : coherent (mapSet m (toolName v) v) := by
  intro e he
  rcases mem_mapSet he with h1 | h1
  · exact h e h1
  · rw [h1.1, h1.2]

theorem coherent_insertAll (m : List (String × IndexedTool)) (h : coherent m)
    (ts : List IndexedTool) : coherent (insertAll m ts) := by
  induction ts generalizing m with
  | nil => exact h
  | cons t ts ih => exact ih _ (coherent_mapSet m h t)

/-- `find?` only depends on the predicate's values on the list members. -/
theorem find?_congr_mem {α : Type} (l : List α) (p q : α → Bool)
    (h : ∀ x ∈ l, p x = q x) : l.find? p = l.find? q := by
  induction l with
  | nil => rfl
  | cons a l ih =>
    have ha := h a (by simp)
    cases hp : p a with
    | true =>
      rw [List.find?_cons_of_pos l hp, List.find?_cons_of_pos l (ha ▸ hp)]
    | false =>
      rw [List.find?_cons_of_neg l (by simp [hp]),
        List.find?_cons_of_neg l (by simp [← ha, hp])]
      exact ih (fun x hx => h x (by simp [hx]))

/-- On a coherent map, searching the value list by tool name is the same
as looking the name up in the map. -/
theorem find?_values_eq_alookup (m : List (String × IndexedTool))
    (h : coherent m) (k : String) :
    (m.map Prod.snd).find? (fun t => toolName t == k) = alookup m k := by
  rw [List.find?_map]
  unfold alookup
  congr 1
  apply find?_congr_mem
  intro e he
  have := h e he
  simp [Function.comp, ← this]

/-- In a list with pairwise-distinct names, `find?` by the name of a
member returns that member. -/
theorem find?_name_eq_of_nodup (l : List IndexedTool) (t : IndexedTool)
    (hnd : (names l).Nodup) (ht : t ∈ l) :
    l.find? (fun r => toolName r == toolName t) = some t := by
  induction l with
  | nil => cases ht
  | cons a l ih =>
    have hnd' : toolName a ∉ names l ∧ (names l).Nodup := by
      simpa [names, List.nodup_cons] using hnd
    rcases List.mem_cons.mp ht with rfl | ht'
    · simp
    · have hne : (toolName a == toolName t) = false := by
        simp only [beq_eq_false_iff_ne, ne_eq]
        intro hEq
        exact hnd'.1 (hEq ▸ List.mem_map_of_mem toolName ht')
      rw [List.find?_cons_of_neg l (by simp [hne])]
      exact ih hnd'.2 ht'

/-- In a list with pairwise-distinct names, the last tool with a member's
name is that member. -/
theorem lastWith_eq_of_nodup (l : List IndexedTool) (t : IndexedTool)
    (hnd : (names l).Nodup) (ht : t ∈ l) :
    lastWith l (toolName t) = some t := by
  unfold lastWith
  apply find?_name_eq_of_nodup
  · rw [show names l.reverse = (names l).reverse by simp [names]]
    exact List.nodup_reverse.mpr hnd
  · simpa using ht

/-- Reduction of the merge on two present indexes. -/
theorem mergeIndexedTools_some_some (p u : PersistedIndex) :
    mergeIndexedTools (some p) (some u) =
      (insertAll (insertAll [] u.tools) p.tools).map Prod.snd := rfl

/-- Reduction of the merge on a present project index only. -/
theorem mergeIndexedTools_some_none (p : PersistedIndex) :
    mergeIndexedTools (some p) none = (insertAll [] p.tools).map Prod.snd := rfl

/-! ### Concrete sample data for witnesses -/

/-- A sample indexed tool with a given name and title. -/
def sampleTool (n ttl : String) : IndexedTool :=
  ⟨⟨n, ttl, "", ""⟩, "", [], none, "srv"⟩

/-- A sample persisted index holding the given tool list. -/
def sampleIndex (ts : List IndexedTool) : PersistedIndex :=
  ⟨1, "", none, none, ts, ⟨0, [], 0⟩, false⟩

def toolA : IndexedTool := sampleTool "a" "project-a"

def toolBproj : IndexedTool := sampleTool "b" "project-b"

def toolBuser : IndexedTool := sampleTool "b" "user-b"

def toolC : IndexedTool := sampleTool "c" "user-c"

def projSample : PersistedIndex := sampleIndex [toolA, toolBproj]

def userSample : PersistedIndex := sampleIndex [toolBuser, toolC]

/-- Claim C1: for two present indexes and a tool name present in both, the
merged collection's entry for that name is the project index's tool of
that name — project values win on name collision. Per-scope uniqueness of
names (the data model's invariant on an index) is assumed for the project
index so that "the project index's tool for that name" is well defined. -/
theorem mergeIndexedTools_project_wins (p u : PersistedIndex) (t : IndexedTool)
    (hp : (names p.tools).Nodup) (ht : t ∈ p.tools)
    (_hu : toolName t ∈ names u.tools) :
    (mergeIndexedTools (some p) (some u)).find?
      (fun r => toolName r == toolName t) = some t := by
  rw [mergeIndexedTools_some_some,
    find?_values_eq_alookup _
      (coherent_insertAll _ (coherent_insertAll _ coherent_nil u.tools) p.tools),
    alookup_insertAll, lastWith_eq_of_nodup p.tools t hp ht]

/-- Witness for C1: in the sample indexes, "b" occurs in both scopes and
the merged entry for "b" is the project version. -/
theorem mergeIndexedTools_project_wins_witness :
    (names projSample.tools).Nodup ∧ toolBproj ∈ projSample.tools
    ∧ toolName toolBproj ∈ names userSample.tools
    ∧ (mergeIndexedTools (some projSample) (some userSample)).find?
        (fun r => toolName r == toolName toolBproj) = some toolBproj :=
  ⟨by decide, by decide, by decide,
    mergeIndexedTools_project_wins projSample userSample toolBproj
      (by decide) (by decide) (by decide)⟩

/-! ### Uniqueness of names in the merged collection -/

theorem nodup_keys_mapSet (m : List (String × IndexedTool))
    (hm : (keys m).Nodup) (k : String) (v : IndexedTool) :
    (keys (mapSet m k v)).Nodup := by
  by_cases hk : k ∈ keys m
  · rw [keys_mapSet_of_mem m k v hk]
    exact hm
  · rw [mapSet_of_not_mem m k v hk]
    have hkeys : keys (m ++ [(k, v)]) = keys m ++ [k] := by simp [keys]
    rw [hkeys]
    simp [List.nodup_append, hm, hk]

theorem nodup_keys_insertAll (ts : List IndexedTool)
    (m : List (String × IndexedTool)) (hm : (keys m).Nodup) :
    (keys (insertAll m ts)).Nodup := by
  induction ts generalizing m with
  | nil => exact hm
  | cons t ts ih => exact ih _ (nodup_keys_mapSet m hm (toolName t) t)

/-- On a coherent map, the names of the value list are the keys. -/
theorem names_values_eq_keys (m : List (String × IndexedTool))
    (h : coherent m) : names (m.map Prod.snd) = keys m := by
  unfold names keys
  rw [List.map_map]
  apply List.map_congr_left
  intro e he
  exact (h e he).symm

/-- Inserting a tool list whose names are fresh for the map and pairwise
distinct appends its entries in order. -/
theorem insertAll_fresh (ts : List IndexedTool) (m : List (String × IndexedTool))
    (hfresh : ∀ t ∈ ts, toolName t ∉ keys m) (hnd : (names ts).Nodup) :
    insertAll m ts = m ++ ts.map (fun t => (toolName t, t)) := by
  induction ts generalizing m with
  | nil => simp [insertAll]
  | cons t ts ih =>
    have hne : toolName t ∉ keys m := hfresh t (by simp)
    have hnd1 : (toolName t :: names ts).Nodup := by simpa [names] using hnd
    have hnd0 := List.nodup_cons.mp hnd1
    have hkeys : keys (m ++ [(toolName t, t)]) = keys m ++ [toolName t] := by
      simp [keys]
    have hfresh' : ∀ r ∈ ts, toolName r ∉ keys (m ++ [(toolName t, t)]) := by
      intro r hr hmem
      rw [hkeys] at hmem
      rcases List.mem_append.mp hmem with h1 | h1
      · exact hfresh r (List.mem_cons_of_mem t hr) h1
      · rw [List.mem_singleton] at h1
        exact hnd0.1 (h1 ▸ List.mem_map_of_mem toolName hr)
    calc insertAll m (t :: ts)
        = insertAll (m ++ [(toolName t, t)]) ts := by
          rw [show insertAll m (t :: ts)
              = insertAll (mapSet m (toolName t) t) ts from rfl,
            mapSet_of_not_mem m (toolName t) t hne]
      _ = (m ++ [(toolName t, t)]) ++ ts.map (fun r => (toolName r, r)) :=
          ih _ hfresh' hnd0.2
      _ = m ++ (t :: ts).map (fun r => (toolName r, r)) := by simp

/-- The keys of the map built from a tool list are its names. -/
theorem keys_pairup (ts : List IndexedTool) :
    keys (ts.map (fun t => (toolName t, t))) = names ts := by
  simp [keys, names, List.map_map]

/-- Claim C3: the merged list contains each tool name at most once
(pairwise-distinct names), for every pair of inputs; and when the two
inputs' name sets are disjoint (with per-scope uniqueness, the data
model's invariant), the merged length is the sum of the two tool counts. -/
theorem mergeIndexedTools_unique_names :
    (∀ p u : Option PersistedIndex, (names (mergeIndexedTools p u)).Nodup)
    ∧ (∀ p u : PersistedIndex, (names p.tools).Nodup → (names u.tools).Nodup →
        (∀ n ∈ names p.tools, n ∉ names u.tools) →
        (mergeIndexedTools (some p) (some u)).length
          = p.tools.length + u.tools.length) := by
  constructor
  · intro p u
    cases p with
    | none =>
      cases u with
      | none => simp [mergeIndexedTools, names]
      | some ui =>
        rw [show mergeIndexedTools none (some ui)
            = (insertAll [] ui.tools).map Prod.snd from rfl,
          names_values_eq_keys _ (coherent_insertAll _ coherent_nil ui.tools)]
        exact nodup_keys_insertAll ui.tools [] (by simp [keys])
    | some pi =>
      cases u with
      | none =>
        rw [mergeIndexedTools_some_none,
          names_values_eq_keys _ (coherent_insertAll _ coherent_nil pi.tools)]
        exact nodup_keys_insertAll pi.tools [] (by simp [keys])
      | some ui =>
        rw [mergeIndexedTools_some_some,
          names_values_eq_keys _
            (coherent_insertAll _ (coherent_insertAll _ coherent_nil ui.tools)
              pi.tools)]
        exact nodup_keys_insertAll pi.tools _
          (nodup_keys_insertAll ui.tools [] (by simp [keys]))
  · intro p u hp hu hdisj
    rw [mergeIndexedTools_some_some]
    rw [insertAll_fresh u.tools [] (by simp [keys]) hu]
    rw [insertAll_fresh p.tools _ ?fresh hp]
    · simp [Nat.add_comm]
    case fresh =>
      intro t ht hmem
      rw [List.nil_append, keys_pairup] at hmem
      exact hdisj (toolName t) (List.mem_map_of_mem toolName ht) hmem

def projDisj : PersistedIndex := sampleIndex [toolA]

def userDisj : PersistedIndex := sampleIndex [toolC]

/-- Witness for C3: unique names in a sample merge, and additive length for
a sample pair with disjoint name sets. -/
theorem mergeIndexedTools_unique_names_witness :
    (names (mergeIndexedTools (some projSample) (some userSample))).Nodup
    ∧ (mergeIndexedTools (some projDisj) (some userDisj)).length
        = projDisj.tools.length + userDisj.tools.length :=
  ⟨mergeIndexedTools_unique_names.1 (some projSample) (some userSample),
    mergeIndexedTools_unique_names.2 projDisj userDisj
      (by decide) (by decide) (by decide)⟩

/-! ### Order-preserving overlay (claim C2) -/

/-- Replacing a key that no entry has is a no-op on the map image. -/
theorem map_setfn_of_not_mem (m : List (String × IndexedTool)) (k : String)
    (v : IndexedTool) (h : k ∉ keys m) :
    m.map (fun e => if e.1 = k then (e.1, v) else e) = m := by
  conv_rhs => rw [← List.map_id m]
  apply List.map_congr_left
  intro e he
  have hne : e.1 ≠ k := fun hEq => h (hEq ▸ List.mem_map_of_mem Prod.fst he)
  simp [hne]

/-- On a map with pairwise-distinct keys, setting an existing key rewrites
exactly the entry with that key, in place. -/
theorem mapSet_eq_map_of_mem (m : List (String × IndexedTool)) (k : String)
    (v : IndexedTool) (hm : (keys m).Nodup) (hk : k ∈ keys m) :
    mapSet m k v = m.map (fun e => if e.1 = k then (e.1, v) else e) := by
  induction m with
  | nil => simp [keys] at hk
  | cons e0 rest ih =>
    obtain ⟨k0, v0⟩ := e0
    have hnd0 : k0 ∉ keys rest ∧ (keys rest).Nodup := by
      simpa [keys, List.nodup_cons] using hm
    by_cases hk0 : k0 = k
    · subst hk0
      rw [show mapSet ((k0, v0) :: rest) k0 v = (k0, v) :: rest from by
        simp [mapSet]]
      simp only [List.map_cons]
      rw [map_setfn_of_not_mem rest k0 v hnd0.1]
      simp
    · have hk' : k ∈ keys rest := by
        have hcons : keys ((k0, v0) :: rest) = k0 :: keys rest := rfl
        rcases List.mem_cons.mp (hcons ▸ hk) with h1 | h1
        · exact absurd h1.symm hk0
        · exact h1
      rw [show mapSet ((k0, v0) :: rest) k v = (k0, v0) :: mapSet rest k v from by
        simp [mapSet, hk0]]
      simp only [List.map_cons, if_neg hk0]
      rw [ih hnd0.2 hk']

/-- A name missing from a tool list is found by no `find?` over it. -/
theorem find?_name_eq_none (ts : List IndexedTool) (k : String)
    (h : k ∉ names ts) : ts.find? (fun r => toolName r == k) = none := by
  refine List.find?_eq_none.mpr ?_
  intro r hr hbeq
  rw [beq_iff_eq] at hbeq
  exact h (hbeq ▸ List.mem_map_of_mem toolName hr)

/-- One insertion loop over `ts`, applied to a map `m` with distinct keys,
when the names of `ts` are pairwise distinct: every existing key named in
`ts` has its value replaced in place (by the unique tool of `ts` with that
name), and the tools of `ts` with fresh names are appended in `ts` order. -/
theorem insertAll_overlay (ts : List IndexedTool)
    (m : List (String × IndexedTool)) (hm : (keys m).Nodup)
    (hts : (names ts).Nodup) :
    insertAll m ts =
      m.map (fun e => (e.1, ((ts.find? (fun r => toolName r == e.1)).getD e.2)))
      ++ (ts.filter (fun r => !((keys m).contains (toolName r)))).map
          (fun r => (toolName r, r)) := by
  induction ts generalizing m with
  | nil =>
    simp [insertAll]
  | cons t ts ih =>
    have hnd1 : (toolName t :: names ts).Nodup := by simpa [names] using hts
    have hnd0 := List.nodup_cons.mp hnd1
    have hstep : insertAll m (t :: ts) = insertAll (mapSet m (toolName t) t) ts :=
      rfl
    have hfind_none : ts.find? (fun r => toolName r == toolName t) = none :=
      find?_name_eq_none ts (toolName t) hnd0.1
    by_cases hmem : toolName t ∈ keys m
    · have hkeys' : keys (mapSet m (toolName t) t) = keys m :=
        keys_mapSet_of_mem m (toolName t) t hmem
      rw [hstep, ih _ (by rw [hkeys']; exact hm) hnd0.2, hkeys']
      congr 1
      · rw [mapSet_eq_map_of_mem m (toolName t) t hm hmem, List.map_map]
        apply List.map_congr_left
        intro e he
        by_cases heq : e.1 = toolName t
        · simp only [Function.comp_apply, if_pos heq]
          rw [heq, hfind_none]
          have hpos : (toolName t == toolName t) = true := by simp
          rw [List.find?_cons_of_pos ts hpos]
          rfl
        · have hbeq : (toolName t == e.1) = false := by
            simp only [beq_eq_false_iff_ne, ne_eq]
            exact fun h1 => heq h1.symm
          simp only [Function.comp_apply, if_neg heq]
          rw [List.find?_cons_of_neg ts (by simp [hbeq])]
      · have hpt : (!((keys m).contains (toolName t))) = false := by
          simpa using hmem
        rw [List.filter_cons, hpt]
        simp
    · have happend : mapSet m (toolName t) t = m ++ [(toolName t, t)] :=
        mapSet_of_not_mem m (toolName t) t hmem
      have hkeys' : keys (m ++ [(toolName t, t)]) = keys m ++ [toolName t] := by
        simp [keys]
      have hm' : (keys m ++ [toolName t]).Nodup := by
        simp [List.nodup_append, hm, hmem]
      rw [hstep, happend, ih _ (by rw [hkeys']; exact hm') hnd0.2, hkeys']
      rw [List.map_append]
      have hsingle :
          ([(toolName t, t)].map
            (fun e => (e.1, ((ts.find? (fun r => toolName r == e.1)).getD e.2))))
          = [(toolName t, t)] := by
        simp [hfind_none]
      rw [hsingle]
      have hfilter :
          ts.filter (fun r => !((keys m ++ [toolName t]).contains (toolName r)))
            = ts.filter (fun r => !((keys m).contains (toolName r))) := by
        apply List.filter_congr
        intro r hr
        have hne : toolName r ≠ toolName t := by
          intro h1
          exact hnd0.1 (h1 ▸ List.mem_map_of_mem toolName hr)
        simp [hne]
      rw [hfilter]
      have hmaps : m.map
            (fun e => (e.1, ((ts.find? (fun r => toolName r == e.1)).getD e.2)))
          = m.map
            (fun e => (e.1, (((t :: ts).find? (fun r => toolName r == e.1)).getD e.2))) := by
        apply List.map_congr_left
        intro e he
        have hne : toolName t ≠ e.1 := by
          intro h1
          exact hmem (h1 ▸ List.mem_map_of_mem Prod.fst he)
        rw [List.find?_cons_of_neg ts (by simp [hne])]
      rw [hmaps]
      have hpt : (!((keys m).contains (toolName t))) = true := by
        simpa using hmem
      rw [List.filter_cons, hpt]
      simp

/-- Claim C2: with per-scope unique names (the data model's invariant),
the merge's output order is: the user's tools first in user order — each
replaced by the project's tool of the same name when one exists, keeping
its position — followed by the project's tools whose names are new,
appended in project order. -/
theorem mergeIndexedTools_order (p u : PersistedIndex)
    (hp : (names p.tools).Nodup) (hu : (names u.tools).Nodup) :
    mergeIndexedTools (some p) (some u) =
      u.tools.map
        (fun t => ((p.tools.find? (fun r => toolName r == toolName t)).getD t))
      ++ p.tools.filter (fun t => !((names u.tools).contains (toolName t))) := by
  rw [mergeIndexedTools_some_some,
    insertAll_fresh u.tools [] (by simp [keys]) hu,
    List.nil_append,
    insertAll_overlay p.tools _ (by rw [keys_pairup]; exact hu) hp,
    keys_pairup]
  rw [List.map_append, List.map_map, List.map_map]
  congr 1
  rw [List.map_map,
    show (Prod.snd ∘ fun r : IndexedTool => (toolName r, r)) = id from rfl]
  exact List.map_id _

/-- Witness for C2: the spec's pinned example. With
`project = [a(project), b(project)]` and `user = [b(user), c(user)]`, the
merged output is exactly `[b(project), c(user), a(project)]`: "b" keeps its
user-established position but takes the project value, and "a" is appended
after the overlay. -/
theorem mergeIndexedTools_order_witness :
    mergeIndexedTools (some projSample) (some userSample)
      = [toolBproj, toolC, toolA] :=
  (mergeIndexedTools_order projSample userSample (by decide) (by decide)).trans
    (by decide)

/-! ### Intra-scope duplicates (claim C10) -/

/-- The key order a JS `Map` ends up with after inserting a key sequence
that may contain duplicates: each key at the position of its first
occurrence, given the keys already `seen` in the map. -/
def dedupFirst (seen : List String) : List String → List String
  | [] => []
  | n :: rest =>
      if n ∈ seen then dedupFirst seen rest else n :: dedupFirst (n :: seen) rest

theorem keys_insertAll_dedupFirst (ts : List IndexedTool)
    (m : List (String × IndexedTool)) (seen : List String)
    (h : ∀ x, x ∈ seen ↔ x ∈ keys m) :
    keys (insertAll m ts) = keys m ++ dedupFirst seen (names ts) := by
  induction ts generalizing m seen with
  | nil => simp [insertAll, dedupFirst, names]
  | cons t ts ih =>
    have hstep : insertAll m (t :: ts) = insertAll (mapSet m (toolName t) t) ts :=
      rfl
    have hnames : names (t :: ts) = toolName t :: names ts := rfl
    by_cases hmem : toolName t ∈ seen
    · have hmem' : toolName t ∈ keys m := (h _).mp hmem
      have hkeys : keys (mapSet m (toolName t) t) = keys m :=
        keys_mapSet_of_mem _ _ _ hmem'
      rw [hstep, ih _ seen (by rw [hkeys]; exact h), hkeys, hnames]
      simp only [dedupFirst, if_pos hmem]
    · have hmem' : toolName t ∉ keys m := fun hx => hmem ((h _).mpr hx)
      have happ : mapSet m (toolName t) t = m ++ [(toolName t, t)] :=
        mapSet_of_not_mem _ _ _ hmem'
      have hkeys : keys (m ++ [(toolName t, t)]) = keys m ++ [toolName t] := by
        simp [keys]
      have h' : ∀ x, x ∈ toolName t :: seen ↔ x ∈ keys (m ++ [(toolName t, t)]) := by
        intro x
        rw [hkeys, List.mem_cons, List.mem_append, List.mem_singleton, h x,
          or_comm]
      rw [hstep, happ, ih _ (toolName t :: seen) h', hkeys, hnames]
      simp only [dedupFirst, if_neg hmem]
      simp [List.append_assoc]

theorem mem_dedupFirst (l : List String) (seen : List String) (x : String) :
    x ∈ dedupFirst seen l ↔ x ∈ l ∧ x ∉ seen := by
  induction l generalizing seen with
  | nil => simp [dedupFirst]
  | cons n rest ih =>
    by_cases hn : n ∈ seen
    · simp only [dedupFirst, if_pos hn, ih]
      constructor
      · rintro ⟨h1, h2⟩
        exact ⟨List.mem_cons_of_mem n h1, h2⟩
      · rintro ⟨h1, h2⟩
        rcases List.mem_cons.mp h1 with rfl | h1
        · exact absurd hn h2
        · exact ⟨h1, h2⟩
    · simp only [dedupFirst, if_neg hn]
      constructor
      · intro hx
        rcases List.mem_cons.mp hx with rfl | hx
        · exact ⟨List.mem_cons_self _ _, hn⟩
        · rcases (ih (n :: seen)).mp hx with ⟨h1, h2⟩
          exact ⟨List.mem_cons_of_mem n h1,
            fun hs => h2 (List.mem_cons_of_mem n hs)⟩
      · rintro ⟨h1, h2⟩
        rcases List.mem_cons.mp h1 with rfl | h1
        · exact List.mem_cons_self x _
        · by_cases hxn : x = n
          · subst hxn
            exact List.mem_cons_self x _
          · refine List.mem_cons_of_mem n ((ih (n :: seen)).mpr ⟨h1, ?_⟩)
            intro hs
            rcases List.mem_cons.mp hs with h3 | h3
            · exact hxn h3
            · exact h2 h3

theorem nodup_dedupFirst (l : List String) (seen : List String) :
    (dedupFirst seen l).Nodup := by
  induction l generalizing seen with
  | nil => simp [dedupFirst]
  | cons n rest ih =>
    by_cases hn : n ∈ seen
    · simp only [dedupFirst, if_pos hn]
      exact ih seen
    · simp only [dedupFirst, if_neg hn]
      refine List.nodup_cons.mpr ⟨?_, ih (n :: seen)⟩
      intro hmem
      exact ((mem_dedupFirst rest (n :: seen) n).mp hmem).2
        (List.mem_cons_self n seen)

theorem count_eq_one_of_nodup_mem (l : List String) (x : String)
    (hnd : l.Nodup) (hx : x ∈ l) : l.count x = 1 := by
  induction l with
  | nil => cases hx
  | cons a l ih =>
    have hnd0 := List.nodup_cons.mp hnd
    rcases List.mem_cons.mp hx with rfl | hx'
    · rw [List.count_cons_self]
      rw [List.count_eq_zero.mpr hnd0.1]
    · have hne : x ≠ a := fun h => hnd0.1 (h ▸ hx')
      rw [List.count_cons_of_ne hne]
      exact ih hnd0.2 hx'

/-- Claim C10: when a single input index itself contains duplicate names
(user scope absent here), the merge keeps, for each name, the value of the
later occurrence at the position established by the first occurrence
(output names are the input names deduplicated keeping first positions;
the stored value is the last tool with the name), and an input name occurs
in the output exactly once. -/
theorem mergeIndexedTools_intra_scope_dedup (P : PersistedIndex) (nm : String)
    (hmem : nm ∈ names P.tools) :
    names (mergeIndexedTools (some P) none) = dedupFirst [] (names P.tools)
    ∧ (mergeIndexedTools (some P) none).find? (fun r => toolName r == nm)
        = P.tools.reverse.find? (fun r => toolName r == nm)
    ∧ (names (mergeIndexedTools (some P) none)).count nm = 1 := by
  have hnames : names (mergeIndexedTools (some P) none)
      = dedupFirst [] (names P.tools) := by
    rw [mergeIndexedTools_some_none,
      names_values_eq_keys _ (coherent_insertAll _ coherent_nil P.tools),
      keys_insertAll_dedupFirst P.tools [] [] (by intro x; simp [keys])]
    simp [keys]
  refine ⟨hnames, ?_, ?_⟩
  · rw [mergeIndexedTools_some_none,
      find?_values_eq_alookup _ (coherent_insertAll _ coherent_nil P.tools),
      alookup_insertAll]
    have hdef : P.tools.reverse.find? (fun r => toolName r == nm)
        = lastWith P.tools nm := rfl
    rw [hdef]
    cases hl : lastWith P.tools nm with
    | some t => simp
    | none => simp [alookup]
  · rw [hnames]
    exact count_eq_one_of_nodup_mem _ _ (nodup_dedupFirst _ _)
      ((mem_dedupFirst _ _ _).mpr ⟨hmem, by simp⟩)

def toolA2 : IndexedTool := sampleTool "a" "second-a"

def projDup : PersistedIndex := sampleIndex [toolA, toolA2]

/-- Witness for C10: an index holding two tools both named "a". The merged
output has names `["a"]` (first occurrence's position), its entry for "a"
is the second tool (later value wins), and "a" occurs exactly once. -/
theorem mergeIndexedTools_intra_scope_dedup_witness :
    "a" ∈ names projDup.tools
    ∧ names (mergeIndexedTools (some projDup) none) = ["a"]
    ∧ (mergeIndexedTools (some projDup) none).find?
        (fun r => toolName r == "a") = some toolA2
    ∧ (names (mergeIndexedTools (some projDup) none)).count "a" = 1 := by
  have h := mergeIndexedTools_intra_scope_dedup projDup "a" (by decide)
  exact ⟨by decide, h.1.trans (by decide), h.2.1.trans (by decide), h.2.2⟩

/-- Witness for C6 at a concrete empty index and a concrete present user
index. -/
theorem merge_functions_total_on_null_witness :
    (sampleIndex []).tools = []
    ∧ (mergeIndexedTools none none = []
        ∧ selectBM25Stats none none = defaultBM25Stats
        ∧ hasAnyEmbeddings none none = false
        ∧ mergeIndexedTools none (some userSample)
            = mergeIndexedTools (some (sampleIndex [])) (some userSample)
        ∧ mergeIndexedTools (some userSample) none
            = mergeIndexedTools (some userSample) (some (sampleIndex []))) :=
  ⟨rfl, merge_functions_total_on_null (some userSample) (sampleIndex []) rfl⟩

/-! ### Tool executor (claim C9), from the `ToolExecutor` class -/

/-- `McpServerConfig` as consumed by `ToolExecutor.createTransport`:
optional `transport`, `url`, `command`, `args`, `env`. -/
structure McpServerConfig where
  transport : Option String
  url : Option String
  command : Option String
  args : Option (List String)
  env : Option (List (String × String))
  deriving DecidableEq, Repr

/-- A created transport (`StreamableHTTPClientTransport`,
`SSEClientTransport` or `StdioClientTransport`). -/
inductive TransportSpec where
  | http (url : String)
  | sse (url : String)
  | stdio (command : String) (args : List String) (env : List (String × String))
  deriving DecidableEq, Repr

/-- JS truthiness of an optional string (`undefined` and `""` are falsy). -/
def strTruthy (s : Option String) : Bool :=
  match s with
  | some v => !(v == "")
  | none => false

/-- `config.transport || (config.url ? 'http' : 'stdio')` (JS `||`, so an
empty transport string also falls back to the default). -/
def effectiveTransport (config : McpServerConfig) : String :=
  match config.transport with
  | some t =>
    if t == "" then (if strTruthy config.url then "http" else "stdio") else t
  | none => if strTruthy config.url then "http" else "stdio"

/-- The stdio environment: every defined `process.env` entry, overridden by
`config.env` via `Object.assign` (config keys win). -/
def mergeEnv (processEnv : List (String × String))
    (cfgEnv : Option (List (String × String))) : List (String × String) :=
  match cfgEnv with
  | none => processEnv
  | some es => processEnv.filter (fun e => !(es.any (fun e2 => e2.1 == e.1))) ++ es

/-- The `else if (config.command)` / `else throw` tail of
`createTransport`. -/
def stdioFallback (processEnv : List (String × String))
    (config : McpServerConfig) : Except String TransportSpec :=
  match config.command with
  | some c =>
    if !(c == "") then
      Except.ok (TransportSpec.stdio c (config.args.getD [])
        (mergeEnv processEnv config.env))
    else Except.error "Invalid server configuration: missing command or url"
  | none => Except.error "Invalid server configuration: missing command or url"

/-- `ToolExecutor.createTransport`: pick the HTTP, SSE or stdio transport
from the config, or fail with the source's error message. `new URL(...)`
parsing and transport construction are value-level here; connection-time
failures (including a malformed URL) are decided by the abstract connect
outcome below. -/
def createTransport (processEnv : List (String × String))
    (config : McpServerConfig) : Except String TransportSpec :=
  let transport := effectiveTransport config
  match config.url with
  | some u =>
    if transport == "http" && !(u == "") then Except.ok (TransportSpec.http u)
    else if transport == "sse" && !(u == "") then Except.ok (TransportSpec.sse u)
    else stdioFallback processEnv config
  | none => stdioFallback processEnv config

/-- The abstract outside world `callTool` interacts with: the outcome of
`client.connect` raced against the connection timeout, and the outcome of
the remote `client.callTool` invocation. `α` is the opaque type of
argument values (`unknown`), `ρ` the opaque protocol-level result type
(`CompatibilityCallToolResult`). -/
structure ExecutorWorld (α ρ : Type) where
  connectOutcome : String → TransportSpec → Except String Unit
  callOutcome : String → String → List (String × α) → Except String ρ
  processEnv : List (String × String)

/-- The executor state `callTool` reads: which servers have a live client
connection, and the registered server configurations. -/
structure ExecutorState where
  clients : List String
  serverConfigs : List (String × McpServerConfig)

/-- `ToolExecutor.getClient`: reuse a live client; otherwise look up the
server's configuration (failing with the source's "Unknown server"
message), create a transport, and connect, the world deciding the connect
outcome (success, failure, or the racing timeout error). Returns the
updated state on success. -/
def getClient {α ρ : Type} (w : ExecutorWorld α ρ) (st : ExecutorState)
    (serverName : String) : Except String ExecutorState :=
  if st.clients.contains serverName then Except.ok st
  else
    match st.serverConfigs.find? (fun e => e.1 == serverName) with
    | none =>
      Except.error ("Unknown server: " ++ serverName ++ ". Server not registered.")
    | some e =>
      match createTransport w.processEnv e.2 with
      | Except.error msg => Except.error msg
      | Except.ok tr =>
        match w.connectOutcome serverName tr with
        | Except.error msg => Except.error msg
        | Except.ok _ => Except.ok ⟨serverName :: st.clients, st.serverConfigs⟩

/-- The `ToolCallResult` interface: `{success, result?, error?}`. -/
structure ToolCallResult (ρ : Type) where
  success : Bool
  result : Option ρ
  error : Option String

/-- `ToolExecutor.callTool`: the whole body is one `try`/`catch`; every
error from `getClient` (unregistered server, invalid configuration,
connect failure or timeout) or from the remote call is caught and returned
as `{success: false, error}`, and a successful call returns
`{success: true, result}`. -/
def callTool {α ρ : Type} (w : ExecutorWorld α ρ) (st : ExecutorState)
    (serverName toolNm : String) (args : List (String × α)) :
    ToolCallResult ρ :=
  match getClient w st serverName with
  | Except.error e => ⟨false, none, some e⟩
  | Except.ok _ =>
    match w.callOutcome serverName toolNm args with
    | Except.error e => ⟨false, none, some e⟩
    | Except.ok r => ⟨true, some r, none⟩

/-- Claim C9: `ToolExecutor.callTool` never throws: for every world (every
connect and call outcome), executor state, server name, tool name and
argument map, it returns a `ToolCallResult` that is either
`{success: true, result}` or `{success: false, error}` — no failure
(unregistered server, invalid configuration, connection timeout, transport
failure, or tool invocation error) escapes as an exception. The model's
return type is the plain `ToolCallResult`, not an error monad, so totality
is by construction; this theorem adds that the two shapes are exhaustive
and well formed. -/
theorem callTool_total {α ρ : Type} (w : ExecutorWorld α ρ)
    (st : ExecutorState) (serverName toolNm : String)
    (args : List (String × α)) :
    (∃ r, callTool w st serverName toolNm args = ⟨true, some r, none⟩)
    ∨ (∃ e, callTool w st serverName toolNm args = ⟨false, none, some e⟩) := by
  unfold callTool
  cases getClient w st serverName with
  | error e => exact Or.inr ⟨e, rfl⟩
  | ok st' =>
    cases w.callOutcome serverName toolNm args with
    | error e => exact Or.inr ⟨e, rfl⟩
    | ok r => exact Or.inl ⟨r, rfl⟩
